import Mathlib

/-!
Verification of the FileTypeAnalyzer repository.

This file gives a shallow embedding of the parts of the source that the
specification's testable properties talk about:

* the concurrent scheduler `DynamicTaskQueue` of `app.js` (its `add`,
  `start`, `process`, settlement callbacks and the `onProgress` /
  `onComplete` events), modelled as a small-step system whose atomic steps
  are the synchronously executed JavaScript callback bodies;
* the signature matcher `detectType` of `worker.js` together with its
  `MAGIC_SIGNATURES` table, and the magic-number loop of `analyzeFile` in
  `app.js` with the full `magicDatabase` and `extensionMap` tables;
* the Shannon entropy scorer `calculateEntropy` and the classifier
  `getEntropyLevel`;
* the per-file analysis pipeline `analyzeFile`;
* the conflict-free naming resolver of `organizeFiles` (sanitisation,
  per-group claimed-name sets, and the `_1`, `_2`, … duplicate suffixing).

Theorems at the end of the file settle the specification claims.
-/

namespace FileTypeAnalyzer

/-! ## The concurrent scheduler (`DynamicTaskQueue` in app.js)

JavaScript is single threaded: the bodies of `process()` and of the two
settlement callbacks (`.then(...)`, `.catch(...)`) each run atomically, and
the only nondeterminism is the order in which in-flight handler promises
settle.  We therefore model a run as a sequence of atomic settlement steps
acting on the scheduler's state.  `paused` is `false` for the whole life of
every queue the source creates (nothing ever sets it), so it is omitted.
Both callbacks `onProgress` and `onComplete` are assumed registered, as in
both call sites (`analyzeFiles`, `organizeFiles`).  Wall-clock latency
tracking (`times`, `getAverageTime`) has no bearing on any claim about
which events fire and is not modelled. -/

/-- A work item submitted to `DynamicTaskQueue`.  `ok` records whether the
handler's promise for this item resolves (`true`) or rejects (`false`);
`id` lets distinct items with the same outcome be told apart. -/
structure Task where
  id : Nat
  ok : Bool
deriving DecidableEq

/-- State of one `DynamicTaskQueue` batch.  `queue`, `active` and `results`
mirror the fields of the class (`active` lists the started-but-unsettled
tasks, so `activeCount` is `active.length`).  `settled` is a ghost log of
settlements in settlement order, `progressCount` counts `onProgress`
firings, and `completeLog` records one entry per `onComplete` firing:
the results passed to it together with `activeCount` and `queue.length`
at fire time. -/
structure QState where
  queue : List Task
  active : List Task
  results : List Task
  settled : List Task
  progressCount : Nat
  completeLog : List (List Task × Nat × Nat)
deriving DecidableEq

/-- The dispatch loop of `process()`: while
`activeCount < concurrency && queue.length > 0`, shift the head of the
queue and start it.  Returns the remaining queue and the new active list. -/
def fillGo (K : Nat) : List Task → List Task → List Task × List Task
  | [], act => ([], act)
  | t :: rest, act =>
    if act.length < K then fillGo K rest (act ++ [t]) else (t :: rest, act)

/-- One call of `process()`: fill free slots, then fire `onComplete` if
`activeCount === 0 && queue.length === 0` (the log entry records the
results passed together with `activeCount` and `queue.length` at fire
time). -/
def processStep (K : Nat) (s : QState) : QState :=
  { queue := (fillGo K s.queue s.active).1
    active := (fillGo K s.queue s.active).2
    results := s.results
    settled := s.settled
    progressCount := s.progressCount
    completeLog := s.completeLog ++
      (if (fillGo K s.queue s.active).2 = [] ∧ (fillGo K s.queue s.active).1 = [] then
        [(s.results, (fillGo K s.queue s.active).2.length, (fillGo K s.queue s.active).1.length)]
      else []) }

/-- Settlement of the in-flight task `t`: the `.then` callback on success
(decrement, push the result, fire `onProgress`, call `process()`), the
`.catch` callback on failure (log the error, decrement, call `process()` —
note: no `onProgress`, no result).  If `t` is not in flight nothing
happens. -/
def settleStep (K : Nat) (s : QState) (t : Task) : QState :=
  if t ∈ s.active then
    let s₁ : QState := { s with active := s.active.erase t, settled := s.settled ++ [t] }
    let s₂ : QState :=
      if t.ok then
        { s₁ with results := s₁.results ++ [t], progressCount := s₁.progressCount + 1 }
      else s₁
    processStep K s₂
  else s

/-- The state right after `add(items)`, before `start`. -/
def initState (items : List Task) : QState :=
  { queue := items, active := [], results := [], settled := [],
    progressCount := 0, completeLog := [] }

/-- `add(items)` followed by `start(handler)` (which calls `process()`
once). -/
def startRun (K : Nat) (items : List Task) : QState :=
  processStep K (initState items)

/-- A (partial or complete) run of the batch: the scheduled in-flight
tasks settle in the given order.  Every state the scheduler ever passes
through is `run K items sched` for some prefix `sched` of the full
schedule. -/
def run (K : Nat) (items : List Task) (sched : List Task) : QState :=
  sched.foldl (settleStep K) (startRun K items)

/-- The inductive invariant of a scheduler run. -/
def QInv (K : Nat) (items : List Task) (s : QState) : Prop :=
  s.active.length ≤ K ∧
  (s.queue ≠ [] → s.active.length = K) ∧
  s.results = s.settled.filter (fun t => t.ok) ∧
  s.progressCount = s.results.length ∧
  (s.settled ++ s.active ++ s.queue).Perm items ∧
  s.completeLog = (if s.active = [] ∧ s.queue = [] then [(s.results, 0, 0)] else [])

/-! ## Bytes, hex strings and file extensions

A JavaScript `Uint8Array` is modelled as a `List (Fin 256)`. -/

/-- One hex digit as produced by `b.toString(16).padStart(2,'0').toUpperCase()`:
`0`–`9` then `A`–`F`. -/
def hexDigitChar (d : Nat) : Char :=
  if d < 10 then Char.ofNat (48 + d) else Char.ofNat (55 + d)

/-- The two uppercase hex digits of one byte (`padStart(2,'0')` makes the
leading zero explicit). -/
def byteToHexChars (b : Fin 256) : List Char :=
  [hexDigitChar (b.val / 16), hexDigitChar (b.val % 16)]

/-- `bytesToHex` of worker.js and app.js: the concatenated uppercase hex
digits of the bytes. -/
def bytesToHex (bytes : List (Fin 256)) : String :=
  ⟨(bytes.map byteToHexChars).flatten⟩

/-- JavaScript `s.startsWith(pre)`. -/
def jsStartsWith (s pre : String) : Bool :=
  pre.data.isPrefixOf s.data

/-- Position of the last `'.'` in a character list, if any (JavaScript
`lastIndexOf('.')`, with `none` for `-1`). -/
def lastDotPosAux : List Char → Nat → Option Nat → Option Nat
  | [], _, acc => acc
  | c :: rest, i, acc => lastDotPosAux rest (i + 1) (if c = '.' then some i else acc)

/-- JavaScript `filename.lastIndexOf('.')` as an `Option Nat`. -/
def lastDotPos (l : List Char) : Option Nat :=
  lastDotPosAux l 0 none

/-- JavaScript `String.prototype.toLowerCase` restricted to the basic latin
range, which is all the source's tables and tests use. -/
def jsToLowerChars (l : List Char) : List Char :=
  l.map Char.toLower

/-- `getFileExtension` of app.js: the substring from the last dot on,
lower-cased; `''` if the name has no dot. -/
def getFileExtension (name : String) : String :=
  match lastDotPos name.data with
  | some i => ⟨jsToLowerChars (name.data.drop i)⟩
  | none => ""

/-! ## Signature tables -/

/-- An entry of the worker's compact `MAGIC_SIGNATURES` table. -/
structure WorkerSig where
  hex : String
  type : String
  category : String
deriving DecidableEq

/-- The `MAGIC_SIGNATURES` table of worker.js, in source order. -/
def MAGIC_SIGNATURES : List WorkerSig :=
  [ ⟨"89504E47", "PNG", "Image"⟩,
    ⟨"FFD8FF", "JPEG", "Image"⟩,
    ⟨"47494638", "GIF", "Image"⟩,
    ⟨"25504446", "PDF", "Document"⟩,
    ⟨"504B0304", "ZIP/DOCX/XLSX", "Archive"⟩,
    ⟨"D0CF11E0", "DOC/XLS/PPT", "Document"⟩,
    ⟨"52617221", "RAR", "Archive"⟩,
    ⟨"377ABCAF", "7Z", "Archive"⟩,
    ⟨"1F8B", "GZIP", "Archive"⟩,
    ⟨"4D5A", "EXE/DLL", "Executable"⟩,
    ⟨"7F454C46", "ELF", "Executable"⟩,
    ⟨"494433", "MP3", "Audio"⟩,
    ⟨"1A45DFA3", "MKV/WEBM", "Video"⟩,
    ⟨"00000018", "MP4", "Video"⟩,
    ⟨"00000020", "MP4", "Video"⟩ ]

/-- `detectType` of worker.js: hex of the first 16 bytes, first table entry
whose `hex` is a literal prefix, else `Unknown`/`Unknown`.  Returns the
`(type, category)` pair of the posted result object. -/
def detectType (bytes : List (Fin 256)) : String × String :=
  match MAGIC_SIGNATURES.find? (fun sig => jsStartsWith (bytesToHex (bytes.take 16)) sig.hex) with
  | some sig => (sig.type, sig.category)
  | none => ("Unknown", "Unknown")

/-- Modelled from the spec (§4.1), for comparison with the code: a hex
pattern matches a header when it is a literal prefix, except that a
fixed-width wildcard span — written with `?` characters standing for the
skipped positions — matches any header character.  The source tables
contain no wildcard span, so on them this coincides with literal prefix
matching. -/
def wildcardPrefixMatches : List Char → List Char → Bool
  | [], _ => true
  | _ :: _, [] => false
  | p :: ps, h :: hs => (p == '?' || p == h) && wildcardPrefixMatches ps hs

/-- Modelled from the spec (§4.1): return the first signature in table
order whose pattern matches the header (wildcard spans skipped), else
`Unknown`/`Unknown`. -/
def specMatcher (sigs : List WorkerSig) (hex : String) : String × String :=
  match sigs.find? (fun sig => wildcardPrefixMatches sig.hex.data hex.data) with
  | some sig => (sig.type, sig.category)
  | none => ("Unknown", "Unknown")

/-- An entry of app.js's full `magicDatabase`. -/
structure AppSig where
  hex : String
  type : String
  category : String
  description : String
  extensions : List String
deriving DecidableEq

/-- The `magicDatabase` table of app.js, in source order. -/
def magicDatabase : List AppSig :=
  [ ⟨"89504E47", "PNG", "Image", "Portable Network Graphics", [".png"]⟩,
    ⟨"FFD8FFE0", "JPEG", "Image", "JPEG Image (JFIF)", [".jpg", ".jpeg"]⟩,
    ⟨"FFD8FFE1", "JPEG", "Image", "JPEG Image (EXIF)", [".jpg", ".jpeg"]⟩,
    ⟨"FFD8FFDB", "JPEG", "Image", "JPEG Image", [".jpg", ".jpeg"]⟩,
    ⟨"FFD8FFEE", "JPEG", "Image", "JPEG Image", [".jpg", ".jpeg"]⟩,
    ⟨"47494638", "GIF", "Image", "Graphics Interchange Format", [".gif"]⟩,
    ⟨"424D", "BMP", "Image", "Bitmap Image", [".bmp"]⟩,
    ⟨"38425053", "PSD", "Image", "Adobe Photoshop Document", [".psd"]⟩,
    ⟨"49492A00", "TIFF", "Image", "Tagged Image File Format", [".tiff", ".tif"]⟩,
    ⟨"4D4D002A", "TIFF", "Image", "Tagged Image File Format", [".tiff", ".tif"]⟩,
    ⟨"00000100", "ICO", "Image", "Windows Icon", [".ico"]⟩,
    ⟨"52494646", "WEBP/WAV/AVI", "Media", "RIFF Container", [".webp", ".wav", ".avi"]⟩,
    ⟨"25504446", "PDF", "Document", "Portable Document Format", [".pdf"]⟩,
    ⟨"D0CF11E0A1B11AE1", "DOC/XLS/PPT", "Document", "Microsoft Office Legacy", [".doc", ".xls", ".ppt"]⟩,
    ⟨"504B0304", "ZIP/DOCX/XLSX", "Archive", "ZIP Archive or Office Open XML", [".zip", ".docx", ".xlsx", ".pptx", ".jar", ".apk"]⟩,
    ⟨"504B0506", "ZIP", "Archive", "ZIP Archive (empty)", [".zip"]⟩,
    ⟨"504B0708", "ZIP", "Archive", "ZIP Archive (spanned)", [".zip"]⟩,
    ⟨"7B5C727466", "RTF", "Document", "Rich Text Format", [".rtf"]⟩,
    ⟨"52617221", "RAR", "Archive", "RAR Archive", [".rar"]⟩,
    ⟨"377ABCAF271C", "7Z", "Archive", "7-Zip Archive", [".7z"]⟩,
    ⟨"1F8B", "GZIP", "Archive", "GZIP Compressed", [".gz", ".gzip"]⟩,
    ⟨"425A68", "BZ2", "Archive", "BZIP2 Compressed", [".bz2"]⟩,
    ⟨"FD377A585A00", "XZ", "Archive", "XZ Compressed", [".xz"]⟩,
    ⟨"1F9D", "Z", "Archive", "LZW Compressed", [".z"]⟩,
    ⟨"494433", "MP3", "Audio", "MP3 Audio (ID3)", [".mp3"]⟩,
    ⟨"FFFB", "MP3", "Audio", "MP3 Audio", [".mp3"]⟩,
    ⟨"FFF3", "MP3", "Audio", "MP3 Audio", [".mp3"]⟩,
    ⟨"FFF2", "MP3", "Audio", "MP3 Audio", [".mp3"]⟩,
    ⟨"664C6143", "FLAC", "Audio", "Free Lossless Audio Codec", [".flac"]⟩,
    ⟨"4F676753", "OGG", "Audio", "OGG Vorbis", [".ogg"]⟩,
    ⟨"1A45DFA3", "MKV/WEBM", "Video", "Matroska/WebM Video", [".mkv", ".webm"]⟩,
    ⟨"464C56", "FLV", "Video", "Flash Video", [".flv"]⟩,
    ⟨"000001BA", "MPEG", "Video", "MPEG Video", [".mpg", ".mpeg"]⟩,
    ⟨"000001B3", "MPEG", "Video", "MPEG Video", [".mpg", ".mpeg"]⟩,
    ⟨"00000018", "MP4", "Video", "MPEG-4 Video", [".mp4", ".m4v"]⟩,
    ⟨"00000020", "MP4", "Video", "MPEG-4 Video", [".mp4", ".m4v"]⟩,
    ⟨"0000001C", "MP4", "Video", "MPEG-4 Video", [".mp4", ".m4v"]⟩,
    ⟨"4D5A", "EXE/DLL", "Executable", "Windows Executable", [".exe", ".dll", ".sys"]⟩,
    ⟨"7F454C46", "ELF", "Executable", "Linux Executable", [""]⟩,
    ⟨"CAFEBABE", "CLASS", "Executable", "Java Class File", [".class"]⟩,
    ⟨"FEEDFACE", "MACH-O", "Executable", "macOS Executable (32-bit)", [""]⟩,
    ⟨"FEEDFACF", "MACH-O", "Executable", "macOS Executable (64-bit)", [""]⟩,
    ⟨"6465780A", "DEX", "Executable", "Android Dalvik Executable", [".dex"]⟩,
    ⟨"53514C69746520666F726D6174", "SQLITE", "Database", "SQLite Database", [".db", ".sqlite", ".sqlite3"]⟩,
    ⟨"3C3F786D6C", "XML", "Data", "XML Document", [".xml"]⟩,
    ⟨"3C21444F43545950", "HTML", "Web", "HTML Document", [".html", ".htm"]⟩,
    ⟨"3C68746D6C", "HTML", "Web", "HTML Document", [".html", ".htm"]⟩,
    ⟨"3C21646F63", "HTML", "Web", "HTML Document", [".html", ".htm"]⟩,
    ⟨"00010000", "TTF", "Font", "TrueType Font", [".ttf"]⟩,
    ⟨"4F54544F", "OTF", "Font", "OpenType Font", [".otf"]⟩,
    ⟨"774F4646", "WOFF", "Font", "Web Open Font Format", [".woff"]⟩,
    ⟨"774F4632", "WOFF2", "Font", "Web Open Font Format 2", [".woff2"]⟩,
    ⟨"25215053", "PS", "Document", "PostScript", [".ps", ".eps"]⟩,
    ⟨"4344303031", "ISO", "Disk", "ISO Disk Image", [".iso"]⟩ ]

/-- A value of app.js's `extensionMap` fallback table. -/
structure TypeInfo where
  type : String
  category : String
  description : String
deriving DecidableEq

/-- The `extensionMap` of app.js (extension-based fallback detection). -/
def extensionMap : List (String × TypeInfo) :=
  [ (".txt", ⟨"Text", "Text", "Plain text file"⟩),
    (".log", ⟨"Log", "Text", "Log file"⟩),
    (".md", ⟨"Markdown", "Text", "Markdown document"⟩),
    (".csv", ⟨"CSV", "Data", "Comma-separated values"⟩),
    (".json", ⟨"JSON", "Data", "JSON data file"⟩),
    (".yaml", ⟨"YAML", "Data", "YAML data file"⟩),
    (".yml", ⟨"YAML", "Data", "YAML data file"⟩),
    (".cpp", ⟨"C++", "Code", "C++ source file"⟩),
    (".c", ⟨"C", "Code", "C source file"⟩),
    (".h", ⟨"Header", "Code", "C/C++ header file"⟩),
    (".hpp", ⟨"Header", "Code", "C++ header file"⟩),
    (".py", ⟨"Python", "Code", "Python script"⟩),
    (".js", ⟨"JavaScript", "Code", "JavaScript file"⟩),
    (".ts", ⟨"TypeScript", "Code", "TypeScript file"⟩),
    (".java", ⟨"Java", "Code", "Java source file"⟩),
    (".cs", ⟨"C#", "Code", "C# source file"⟩),
    (".go", ⟨"Go", "Code", "Go source file"⟩),
    (".rs", ⟨"Rust", "Code", "Rust source file"⟩),
    (".rb", ⟨"Ruby", "Code", "Ruby script"⟩),
    (".swift", ⟨"Swift", "Code", "Swift source file"⟩),
    (".kt", ⟨"Kotlin", "Code", "Kotlin source file"⟩),
    (".html", ⟨"HTML", "Web", "HTML document"⟩),
    (".htm", ⟨"HTML", "Web", "HTML document"⟩),
    (".css", ⟨"CSS", "Web", "Cascading Style Sheet"⟩),
    (".scss", ⟨"SCSS", "Web", "Sass stylesheet"⟩),
    (".less", ⟨"LESS", "Web", "Less stylesheet"⟩),
    (".php", ⟨"PHP", "Web", "PHP script"⟩),
    (".sql", ⟨"SQL", "Database", "SQL script"⟩),
    (".sh", ⟨"Shell", "Script", "Shell script"⟩),
    (".bash", ⟨"Bash", "Script", "Bash script"⟩),
    (".bat", ⟨"Batch", "Script", "Windows batch file"⟩),
    (".ps1", ⟨"PowerShell", "Script", "PowerShell script"⟩),
    (".ini", ⟨"INI", "Config", "Configuration file"⟩),
    (".cfg", ⟨"Config", "Config", "Configuration file"⟩),
    (".conf", ⟨"Config", "Config", "Configuration file"⟩) ]

/-! ## Entropy -/

/-- `calculateEntropy` of app.js and worker.js: Shannon entropy in bits per
byte over a 256-bucket frequency histogram, `0` for empty input.
JavaScript floating point arithmetic is modelled over `ℝ`. -/
noncomputable def calculateEntropy (bytes : List (Fin 256)) : ℝ :=
  if bytes.length = 0 then 0
  else
    ∑ i : Fin 256,
      if 0 < bytes.count i then
        -(((bytes.count i : ℝ) / (bytes.length : ℝ)) *
          Real.logb 2 ((bytes.count i : ℝ) / (bytes.length : ℝ)))
      else 0

/-- The object returned by `getEntropyLevel` (`class` is renamed `cls`). -/
structure EntropyLevel where
  level : String
  cls : String
  description : String
deriving DecidableEq

/-- `getEntropyLevel` of app.js: `< 4` Low, `< 7` Medium, otherwise High. -/
noncomputable def getEntropyLevel (entropy : ℝ) : EntropyLevel :=
  if entropy < 4 then ⟨"Low", "entropy-low", "Text/Code"⟩
  else if entropy < 7 then ⟨"Medium", "entropy-medium", "Normal file"⟩
  else ⟨"High", "entropy-high", "Encrypted/Compressed"⟩

/-! ## The per-file analysis pipeline (`analyzeFile` in app.js)

Presentation-only fields of the result object (`path`, `sizeFormatted`,
`mimeType`) are omitted.  The SHA-256 digest is started asynchronously and
patched into the record later; the synchronous record value carries the
`"Calculating..."` sentinel exactly as in the source, and the digest
computation itself is outside the model. -/

/-- The per-file record produced by `analyzeFile`.  `isEncrypted` is the
truth value of the float comparison `entropy >= 7.5`. -/
structure FileRecord where
  name : String
  size : Nat
  actualExtension : String
  type : String
  category : String
  description : String
  isCorrupt : Bool
  extensionMismatch : Bool
  entropy : ℝ
  entropyLevel : EntropyLevel
  hash : String
  hexPreview : String
  isEncrypted : Prop

/-- The record `analyzeFile` resolves with when `bytes.length < 2`: the
`"too small to identify"` short circuit.  Note that it is built without
any reference to the signature tables, the entropy scorer or the digest. -/
def tooSmallRecord (name : String) (size : Nat) : FileRecord :=
  { name := name, size := size, actualExtension := getFileExtension name,
    type := "Empty/Corrupt", category := "Error",
    description := "File too small to identify",
    isCorrupt := true, extensionMismatch := false,
    entropy := 0, entropyLevel := ⟨"Unknown", "", ""⟩,
    hash := "N/A", hexPreview := "", isEncrypted := False }

/-- The record `analyzeFile` resolves with on the normal path: header hex
from the first 64 bytes, entropy over the first 64 KiB sample, magic-number
loop with extension-mismatch check, then extension-based fallback when no
signature matched. -/
noncomputable def normalRecord (name : String) (bytes : List (Fin 256)) : FileRecord :=
  let headerHex := bytesToHex (bytes.take 64)
  let ext := getFileExtension name
  let ent := calculateEntropy (bytes.take 65536)
  let base : FileRecord :=
    { name := name, size := bytes.length, actualExtension := ext,
      type := "Unknown", category := "Unknown",
      description := "Unrecognized file type",
      isCorrupt := false, extensionMismatch := false,
      entropy := ent, entropyLevel := getEntropyLevel ent,
      hash := "Calculating...",
      hexPreview := ⟨headerHex.data.take 64⟩,
      isEncrypted := 7.5 ≤ ent }
  let afterSig : FileRecord :=
    match magicDatabase.find? (fun sig => jsStartsWith headerHex sig.hex) with
    | some sig =>
      { base with
        type := sig.type
        category := sig.category
        description := sig.description
        extensionMismatch :=
          !sig.extensions.isEmpty && !(ext == "") && !(sig.extensions.contains ext) }
    | none => base
  if afterSig.type = "Unknown" ∧ ext ≠ "" then
    match extensionMap.find? (fun e => e.1 == ext) with
    | some e =>
      { afterSig with
        type := e.2.type
        category := e.2.category
        description := e.2.description }
    | none => afterSig
  else afterSig

/-- `analyzeFile` of app.js on a readable file with the given name and
content. -/
noncomputable def analyzeFile (name : String) (bytes : List (Fin 256)) : FileRecord :=
  if bytes.length < 2 then tooSmallRecord name bytes.length
  else normalRecord name bytes

/-- The magic-number lookup performed inside `analyzeFile`: the first
`magicDatabase` entry whose hex is a literal prefix of the 64-byte header
hex. -/
def magicFind (bytes : List (Fin 256)) : Option AppSig :=
  magicDatabase.find? (fun sig => jsStartsWith (bytesToHex (bytes.take 64)) sig.hex)

/-! ## The conflict-free naming resolver (`organizeFiles` step 2 in app.js)

File and folder names are modelled as `List Char`.  The resolver is the
synchronous pre-calculation loop that, before any write is dispatched,
sanitises each file name, deduplicates it against the per-folder set of
already claimed lower-cased names (`usedNames : Map<FolderName, Set>`)
with `_1`, `_2`, … suffixes inserted before the extension, and claims the
result.  `Date.now()` in the empty-name fallback is modelled as the
parameter `nowStr`; jobs whose original file data is missing are skipped
by the source before this loop, so the input list contains only the
surviving `(folderName, fileName)` pairs. -/

/-- Decimal digits of `n`, most significant first, with structural fuel
(`fuel` bounds the number of digits). -/
def natToCharsAux : Nat → Nat → List Char
  | 0, _ => []
  | fuel + 1, n =>
    if n < 10 then [Char.ofNat (48 + n)]
    else natToCharsAux fuel (n / 10) ++ [Char.ofNat (48 + n % 10)]

/-- JavaScript template interpolation `${counter}` for a natural number:
its usual decimal digits. -/
def natToChars (n : Nat) : List Char :=
  natToCharsAux (n + 1) n

/-- Numeric value of a decimal digit character. -/
def digitVal (c : Char) : Nat :=
  c.toNat - 48

/-- Decimal evaluation of a digit list (used to show `natToChars` is
injective). -/
def charsToNat (l : List Char) : Nat :=
  l.foldl (fun a c => 10 * a + digitVal c) 0

/-- A character matched by `organizeFiles`'s sanitiser class
`[<>:"/\\|?*\x00-\x1F]`. -/
def jsIllegalFileChar (c : Char) : Bool :=
  c == '<' || c == '>' || c == ':' || c == '"' || c == '/' || c == '\\' ||
  c == '|' || c == '?' || c == '*' || c.toNat < 32

/-- `name.replace(/[<>:"/\\|?*\x00-\x1F]/g, '_')`: every matched character
is replaced by `'_'`. -/
def sanitizeChars (l : List Char) : List Char :=
  l.map (fun c => if jsIllegalFileChar c then '_' else c)

/-- `replace(/^\.+/, '_')`: a leading run of dots, if any, is replaced by
one underscore. -/
def collapseLeadingDots : List Char → List Char
  | '.' :: rest => '_' :: ('.' :: rest).dropWhile (fun c => c == '.')
  | l => l

/-- The sanitisation in `organizeFiles`: replace illegal characters,
collapse leading dots, cap at 200 characters, and fall back to
`` `unnamed_${Date.now()}` `` when the result is empty or whitespace-only
(the JavaScript test `!safeName || safeName.trim() === ''`). -/
def sanitizeName (nowStr : List Char) (name : List Char) : List Char :=
  let s := (collapseLeadingDots (sanitizeChars name)).take 200
  if s.all Char.isWhitespace then "unnamed_".data ++ nowStr else s

/-- The candidate built in the duplicate-handling loop for a given
counter: `_${counter}` inserted before the extension when
`safeName.lastIndexOf('.') > 0`, appended at the end otherwise. -/
def withCounter (safe : List Char) (c : Nat) : List Char :=
  match lastDotPos safe with
  | some i =>
    if 0 < i then safe.take i ++ '_' :: natToChars c ++ safe.drop i
    else safe ++ '_' :: natToChars c
  | none => safe ++ '_' :: natToChars c

/-- The `while (folderSet.has(finalName.toLowerCase()))` loop from counter
`c` on, with fuel (the loop terminates because the claimed set is finite
and distinct counters give distinct lower-cased candidates; the fuel used
by `findFree` is shown sufficient below). -/
def freeFrom (claimed : List (List Char)) (safe : List Char) : Nat → Nat → List Char
  | 0, c => withCounter safe c
  | fuel + 1, c =>
    let cand := withCounter safe c
    if jsToLowerChars cand ∈ claimed then freeFrom claimed safe fuel (c + 1) else cand

/-- Duplicate handling for one job: the sanitised name itself when its
lower-casing is unclaimed, otherwise the first suffixed candidate
(counter 1, 2, …) whose lower-casing is unclaimed. -/
def findFree (claimed : List (List Char)) (safe : List Char) : List Char :=
  if jsToLowerChars safe ∈ claimed then freeFrom claimed safe (claimed.length + 1) 1
  else safe

/-- Lookup in the `usedNames` map (association list keyed by folder name);
a missing folder has no claimed names yet. -/
def lookupGroup : List (List Char × List (List Char)) → List Char → List (List Char)
  | [], _ => []
  | (g', v) :: rest, g => if g' = g then v else lookupGroup rest g

/-- Update of the `usedNames` map at one folder key. -/
def insertGroup : List (List Char × List (List Char)) → List Char → List (List Char) →
    List (List Char × List (List Char))
  | [], g, v => [(g, v)]
  | (g', v') :: rest, g, v =>
    if g' = g then (g, v) :: rest else (g', v') :: insertGroup rest g v

/-- One iteration of the pre-calculation loop: sanitise, deduplicate
against the job's folder set, claim the lower-cased final name, emit the
`(folderName, finalName)` ready job. -/
def resolveStep (nowStr : List Char)
    (acc : List (List Char × List (List Char)) × List (List Char × List Char))
    (job : List Char × List Char) :
    List (List Char × List (List Char)) × List (List Char × List Char) :=
  let claimed := lookupGroup acc.1 job.1
  let safe := sanitizeName nowStr job.2
  let final := findFree claimed safe
  (insertGroup acc.1 job.1 (claimed ++ [jsToLowerChars final]),
   acc.2 ++ [(job.1, final)])

/-- The whole pre-calculation pass: every `(folderName, fileName)` job in
input order is given its finalised collision-free name before any write
begins. -/
def resolveNames (nowStr : List Char) (jobs : List (List Char × List Char)) :
    List (List Char × List Char) :=
  (jobs.foldl (resolveStep nowStr) ([], [])).2

/-! ## Statement abbreviations for the scheduler claims -/

/-- The completion contract of one scheduler run (the body of claim C1):
`onComplete` fires at most once; every firing happens with
`activeCount == 0` and an empty queue and passes the final results; a
firing implies every submitted item has settled, the results are exactly
the successful results in settlement order, and the result count is the
item count minus the number of rejections; and a finished run has fired
exactly once. -/
def schedulerCompleteSpec (K : Nat) (items sched : List Task) : Prop :=
  (run K items sched).completeLog.length ≤ 1 ∧
  (∀ e ∈ (run K items sched).completeLog,
      e.2.1 = 0 ∧ e.2.2 = 0 ∧ e.1 = (run K items sched).results) ∧
  ((run K items sched).completeLog ≠ [] →
      (run K items sched).settled.Perm items ∧
      (run K items sched).results = (run K items sched).settled.filter (fun t => t.ok) ∧
      (run K items sched).results.length +
        (items.filter (fun t => !t.ok)).length = items.length) ∧
  (((run K items sched).active = [] ∧ (run K items sched).queue = []) →
      (run K items sched).completeLog.length = 1)

/-! ## Scheduler lemmas -/

theorem fillGo_append (K : Nat) :
    ∀ q act, ∃ d, (fillGo K q act).2 = act ++ d ∧ q = d ++ (fillGo K q act).1 := by
  intro q
  induction q with
  | nil => intro act; exact ⟨[], by simp [fillGo]⟩
  | cons t rest ih =>
    intro act
    by_cases h : act.length < K
    · obtain ⟨d, hd1, hd2⟩ := ih (act ++ [t])
      refine ⟨t :: d, ?_, ?_⟩
      · simpa [fillGo, h, List.append_assoc] using hd1
      · simpa [fillGo, h] using congrArg (t :: ·) hd2
    · exact ⟨[], by simp [fillGo, h]⟩

theorem fillGo_le (K : Nat) :
    ∀ q act, act.length ≤ K → (fillGo K q act).2.length ≤ K := by
  intro q
  induction q with
  | nil => intro act h; simpa [fillGo] using h
  | cons t rest ih =>
    intro act h
    by_cases hlt : act.length < K
    · have := ih (act ++ [t]) (by simpa using hlt)
      simpa [fillGo, hlt] using this
    · simpa [fillGo, hlt] using h

theorem fillGo_full (K : Nat) :
    ∀ q act, act.length ≤ K → (fillGo K q act).1 ≠ [] → (fillGo K q act).2.length = K := by
  intro q
  induction q with
  | nil => intro act _ hne; simp [fillGo] at hne
  | cons t rest ih =>
    intro act h hne
    by_cases hlt : act.length < K
    · have := ih (act ++ [t]) (by simpa using hlt)
      simp only [fillGo, hlt, if_true] at hne ⊢
      exact this hne
    · simp only [fillGo, hlt, if_false]
      omega

theorem fillGo_empty_iff (K : Nat) (q act : List Task) :
    ((fillGo K q act).2 = [] ∧ (fillGo K q act).1 = []) ↔ (act = [] ∧ q = []) := by
  constructor
  · rintro ⟨h2, h1⟩
    obtain ⟨d, hd1, hd2⟩ := fillGo_append K q act
    rw [h2] at hd1
    rw [h1] at hd2
    rcases List.append_eq_nil.mp hd1.symm with ⟨ha, hdnil⟩
    subst ha hdnil
    simpa using hd2
  · rintro ⟨ha, hq⟩
    subst ha hq
    simp [fillGo]

theorem processStep_log (K : Nat) (s : QState) :
    (processStep K s).completeLog =
      s.completeLog ++
        (if (fillGo K s.queue s.active).2 = [] ∧ (fillGo K s.queue s.active).1 = []
         then [(s.results, 0, 0)] else []) := by
  by_cases hc : (fillGo K s.queue s.active).2 = [] ∧ (fillGo K s.queue s.active).1 = []
  · simp only [processStep, hc, if_true, hc.1, hc.2, List.length_nil]
  · simp only [processStep, hc, if_false]

theorem processStep_inv (K : Nat) (items : List Task) (s : QState)
    (h1 : s.active.length ≤ K)
    (h3 : s.results = s.settled.filter (fun t => t.ok))
    (h4 : s.progressCount = s.results.length)
    (h5 : (s.settled ++ s.active ++ s.queue).Perm items)
    (h6 : s.completeLog = []) :
    QInv K items (processStep K s) := by
  obtain ⟨d, hd1, hd2⟩ := fillGo_append K s.queue s.active
  rw [hd2] at h5
  refine ⟨?_, ?_, ?_, ?_, ?_, ?_⟩
  · exact fillGo_le K _ _ h1
  · exact fun hq => fillGo_full K _ _ h1 hq
  · exact h3
  · exact h4
  · show (s.settled ++ (fillGo K s.queue s.active).2 ++ (fillGo K s.queue s.active).1).Perm items
    rw [hd1]
    simpa [List.append_assoc] using h5
  · rw [processStep_log, h6, List.nil_append]
    show (if (fillGo K s.queue s.active).2 = [] ∧ (fillGo K s.queue s.active).1 = []
          then [(s.results, 0, 0)] else []) = _
    rfl

theorem startRun_inv (K : Nat) (items : List Task) : QInv K items (startRun K items) := by
  apply processStep_inv <;> simp [initState]

theorem settleStep_inv (K : Nat) (items : List Task) (s : QState) (t : Task)
    (h : QInv K items s) : QInv K items (settleStep K s t) := by
  obtain ⟨h1, h2, h3, h4, h5, h6⟩ := h
  by_cases hmem : t ∈ s.active
  · have hactive_ne : s.active ≠ [] := List.ne_nil_of_mem hmem
    have hlog : s.completeLog = [] := by
      rw [h6, if_neg]
      rintro ⟨ha, _⟩
      exact hactive_ne ha
    have hlen : (s.active.erase t).length = s.active.length - 1 :=
      List.length_erase_of_mem hmem
    have hperm : ((s.settled ++ [t]) ++ s.active.erase t ++ s.queue).Perm items := by
      refine List.Perm.trans ?_ h5
      have hmid : (s.settled ++ [t]) ++ s.active.erase t ++ s.queue
          = s.settled ++ (t :: s.active.erase t ++ s.queue) := by simp
      have hmid2 : s.settled ++ s.active ++ s.queue
          = s.settled ++ (s.active ++ s.queue) := by simp
      rw [hmid, hmid2]
      exact (((List.perm_cons_erase hmem).symm.append_right s.queue).append_left s.settled)
    by_cases hok : t.ok
    · have hstep : settleStep K s t = processStep K
          ⟨s.queue, s.active.erase t, s.results ++ [t], s.settled ++ [t],
            s.progressCount + 1, s.completeLog⟩ := by
        simp [settleStep, hmem, hok]
      rw [hstep]
      apply processStep_inv K items
      · show (s.active.erase t).length ≤ K
        omega
      · show s.results ++ [t] = (s.settled ++ [t]).filter (fun t => t.ok)
        rw [List.filter_append, ← h3]
        simp [hok]
      · show s.progressCount + 1 = (s.results ++ [t]).length
        simp [h4]
      · exact hperm
      · exact hlog
    · have hstep : settleStep K s t = processStep K
          ⟨s.queue, s.active.erase t, s.results, s.settled ++ [t],
            s.progressCount, s.completeLog⟩ := by
        simp [settleStep, hmem, hok]
      rw [hstep]
      apply processStep_inv K items
      · show (s.active.erase t).length ≤ K
        omega
      · show s.results = (s.settled ++ [t]).filter (fun t => t.ok)
        rw [List.filter_append, ← h3]
        simp [hok]
      · exact h4
      · exact hperm
      · exact hlog
  · have hstep : settleStep K s t = s := by
      simp [settleStep, hmem]
    rw [hstep]
    exact ⟨h1, h2, h3, h4, h5, h6⟩

theorem foldl_settle_inv (K : Nat) (items : List Task) :
    ∀ (sched : List Task) (s : QState), QInv K items s →
      QInv K items (sched.foldl (settleStep K) s) := by
  intro sched
  induction sched with
  | nil => intro s h; exact h
  | cons t rest ih =>
    intro s h
    exact ih _ (settleStep_inv K items s t h)

theorem run_inv (K : Nat) (items sched : List Task) : QInv K items (run K items sched) :=
  foldl_settle_inv K items sched _ (startRun_inv K items)

theorem length_filter_add_length_filter_not (l : List Task) (p : Task → Bool) :
    (l.filter p).length + (l.filter (fun a => !p a)).length = l.length := by
  induction l with
  | nil => rfl
  | cons a l ih =>
    by_cases h : p a <;> simp [List.filter, h] <;> omega

/-! ## Claims C1, C2, C3: the scheduler -/

/-- C1: for every batch of submitted work items run with concurrency limit
`K ≥ 1` and every settlement order, `onComplete` fires at most once and
exactly once when the run finishes, it fires at a moment where
`activeCount == 0` and the pending queue is empty, only after every item
has either settled successfully or failed, and the results it receives are
exactly the successful results in completion order, so their count equals
the item count minus the number of handler rejections. -/
theorem scheduler_onComplete_exactly_once (K : Nat) (items sched : List Task)
    (hK : 1 ≤ K) : schedulerCompleteSpec K items sched := by
  obtain ⟨h1, h2, h3, h4, h5, h6⟩ := run_inv K items sched
  refine ⟨?_, ?_, ?_, ?_⟩
  · rw [h6]
    split <;> simp
  · intro e he
    rw [h6] at he
    by_cases hdone : (run K items sched).active = [] ∧ (run K items sched).queue = []
    · rw [if_pos hdone] at he
      simp only [List.mem_singleton] at he
      subst he
      exact ⟨rfl, rfl, rfl⟩
    · rw [if_neg hdone] at he
      exact absurd he (List.not_mem_nil e)
  · intro hne
    rw [h6] at hne
    by_cases hdone : (run K items sched).active = [] ∧ (run K items sched).queue = []
    · have hperm : (run K items sched).settled.Perm items := by
        have := h5
        rw [hdone.1, hdone.2] at this
        simpa using this
      refine ⟨hperm, h3, ?_⟩
      have hflen : ((run K items sched).settled.filter (fun t => t.ok)).length
          = (items.filter (fun t => t.ok)).length :=
        (hperm.filter (fun t => t.ok)).length_eq
      rw [h3, hflen]
      exact length_filter_add_length_filter_not items (fun t => t.ok)
    · rw [if_neg hdone] at hne
      exact absurd rfl hne
  · intro hdone
    rw [h6, if_pos hdone]
    rfl

/-- Witness for the C1 theorem: a concrete two-item batch (one success,
one rejection) with concurrency 1 and its unique settlement order. -/
theorem scheduler_onComplete_exactly_once_witness :
    1 ≤ 1 ∧ schedulerCompleteSpec 1 [⟨0, true⟩, ⟨1, false⟩] [⟨0, true⟩, ⟨1, false⟩] :=
  ⟨Nat.le_refl 1, scheduler_onComplete_exactly_once 1 _ _ (Nat.le_refl 1)⟩

/-- C2 counterexample: the claim says `onProgress` fires after every
settlement, success or failure; but in the run of the single item
`⟨0, false⟩` (a handler rejection) under concurrency 1 the task settles
(one settlement) while `onProgress` never fires — the `.catch` path of
`DynamicTaskQueue.process` only decrements `activeCount` and refills. -/
theorem scheduler_onProgress_missing_on_failure :
    (run 1 [⟨0, false⟩] [⟨0, false⟩]).settled.length = 1 ∧
    (run 1 [⟨0, false⟩] [⟨0, false⟩]).progressCount = 0 := by decide

/-- C2 (amended): the scheduler fires `onProgress` exactly once per
successful settlement of a dispatched task (with the aggregate stats); a
handler rejection settles the task but does not fire `onProgress`, so at
every point the number of `onProgress` firings equals the number of
successful settlements so far. -/
theorem scheduler_onProgress_success_only (K : Nat) (items sched : List Task) :
    (run K items sched).progressCount =
      ((run K items sched).settled.filter (fun t => t.ok)).length := by
  obtain ⟨_, _, h3, h4, _, _⟩ := run_inv K items sched
  rw [h4, h3]

/-- C3: at every observable instant of a scheduler run (that is, after the
initial `process()` call and after each settlement callback, i.e. in every
state `run K items sched` for any settlement schedule `sched`), the
invariant `0 ≤ activeCount ≤ K` holds: there are never more than `K`
started-but-unsettled handler invocations. -/
theorem scheduler_activeCount_bounded (K : Nat) (items sched : List Task) :
    0 ≤ (run K items sched).active.length ∧ (run K items sched).active.length ≤ K :=
  ⟨Nat.zero_le _, (run_inv K items sched).1⟩

/-! ## Claims C5, C10: the signature matcher -/

theorem wildcard_eq_isPrefixOf :
    ∀ (p h : List Char), '?' ∉ p → wildcardPrefixMatches p h = p.isPrefixOf h := by
  intro p
  induction p with
  | nil => intro h _; cases h <;> rfl
  | cons c cs ih =>
    intro h hn
    have hc : c ≠ '?' := fun hc => hn (hc ▸ List.mem_cons_self c cs)
    have hcs : '?' ∉ cs := fun hm => hn (List.mem_cons_of_mem c hm)
    cases h with
    | nil => rfl
    | cons b bs =>
      simp only [wildcardPrefixMatches, List.isPrefixOf, ih bs hcs]
      have : (c == '?') = false := beq_eq_false_iff_ne.mpr hc
      rw [this, Bool.false_or]

theorem list_find?_congr {α : Type} (l : List α) (f g : α → Bool)
    (h : ∀ x ∈ l, f x = g x) : l.find? f = l.find? g := by
  induction l with
  | nil => rfl
  | cons a l ih =>
    have ha := h a (List.mem_cons_self a l)
    rw [List.find?_cons, List.find?_cons, ha]
    cases hga : g a with
    | true => rfl
    | false => exact ih fun x hx => h x (List.mem_cons_of_mem a hx)

theorem worker_sig_no_wildcard :
    ∀ sig ∈ MAGIC_SIGNATURES, '?' ∉ sig.hex.data := by
  have hall : MAGIC_SIGNATURES.all (fun s => !(s.hex.data.contains '?')) = true := by decide
  intro sig hs hq
  have h1 := List.all_eq_true.mp hall sig hs
  have h2 : sig.hex.data.contains '?' = true := List.elem_iff.mpr hq
  rw [h2] at h1
  exact Bool.false_ne_true h1

theorem app_sig_no_wildcard :
    ∀ sig ∈ magicDatabase, '?' ∉ sig.hex.data := by
  have hall : magicDatabase.all (fun s => !(s.hex.data.contains '?')) = true := by decide
  intro sig hs hq
  have h1 := List.all_eq_true.mp hall sig hs
  have h2 : sig.hex.data.contains '?' = true := List.elem_iff.mpr hq
  rw [h2] at h1
  exact Bool.false_ne_true h1

/-- C5: the signature matcher returns the classification of the first
signature in table order whose hex pattern matches the file header as a
literal prefix, and `Unknown`/`Unknown` when none matches; it agrees
everywhere with the spec's matcher in which fixed-width wildcard spans are
skipped during comparison under the same first-match-wins ordering
(no pattern of either source table contains a wildcard span, so the
wildcard rule is vacuous on them).  The first conjunct covers
`detectType` of worker.js, the second the magic-number loop of
`analyzeFile` in app.js. -/
theorem matcher_first_match_wins (bytes : List (Fin 256)) :
    detectType bytes = specMatcher MAGIC_SIGNATURES (bytesToHex (bytes.take 16)) ∧
    magicFind bytes = magicDatabase.find?
      (fun sig => wildcardPrefixMatches sig.hex.data (bytesToHex (bytes.take 64)).data) := by
  constructor
  · have hcg := list_find?_congr MAGIC_SIGNATURES
      (fun sig => jsStartsWith (bytesToHex (bytes.take 16)) sig.hex)
      (fun sig => wildcardPrefixMatches sig.hex.data (bytesToHex (bytes.take 16)).data)
      (fun sig hs =>
        (wildcard_eq_isPrefixOf sig.hex.data (bytesToHex (bytes.take 16)).data
          (worker_sig_no_wildcard sig hs)).symm)
    unfold detectType specMatcher
    rw [hcg]
  · have hcg := list_find?_congr magicDatabase
      (fun sig => jsStartsWith (bytesToHex (bytes.take 64)) sig.hex)
      (fun sig => wildcardPrefixMatches sig.hex.data (bytesToHex (bytes.take 64)).data)
      (fun sig hs =>
        (wildcard_eq_isPrefixOf sig.hex.data (bytesToHex (bytes.take 64)).data
          (app_sig_no_wildcard sig hs)).symm)
    unfold magicFind
    rw [hcg]

/-- C10: the worker's type detection depends only on the first 16 bytes of
its input: inputs agreeing on offsets 0 through 15 (i.e. with equal
16-byte truncations) classify identically, whatever follows. -/
theorem detectType_depends_on_first_16 (b₁ b₂ : List (Fin 256))
    (h : b₁.take 16 = b₂.take 16) : detectType b₁ = detectType b₂ := by
  unfold detectType
  rw [h]

/-- Witness for the C10 theorem: two 17-byte inputs agreeing on the first
16 bytes and differing at offset 16. -/
theorem detectType_depends_on_first_16_witness :
    (List.replicate 16 (0 : Fin 256) ++ [1]).take 16
      = (List.replicate 16 (0 : Fin 256) ++ [2]).take 16 ∧
    detectType (List.replicate 16 (0 : Fin 256) ++ [1])
      = detectType (List.replicate 16 (0 : Fin 256) ++ [2]) :=
  ⟨by decide, detectType_depends_on_first_16 _ _ (by decide)⟩

/-! ## Claims C6, C7: the analysis pipeline -/

theorem analyzeFile_small (name : String) (bytes : List (Fin 256))
    (hlen : bytes.length < 2) :
    analyzeFile name bytes = tooSmallRecord name bytes.length := by
  unfold analyzeFile
  rw [if_pos hlen]

/-- C6: every input shorter than 2 bytes (the empty input included)
short-circuits to the "too small to identify" record — `corrupt=true`,
entropy `0`, hash sentinel `"N/A"` — and the record is built without
invoking the signature matcher, the entropy scorer or the fingerprint
hash: it equals `tooSmallRecord`, a definition that references none of
them, and consequently does not depend on the byte values at all (inputs
of equal length give identical records). -/
theorem pipeline_short_circuit_small (name : String) (b₁ b₂ : List (Fin 256))
    (hlen : b₁.length < 2) (heq : b₁.length = b₂.length) :
    analyzeFile name b₁ = analyzeFile name b₂ ∧
    analyzeFile name b₁ = tooSmallRecord name b₁.length ∧
    (analyzeFile name b₁).isCorrupt = true ∧
    (analyzeFile name b₁).type = "Empty/Corrupt" ∧
    (analyzeFile name b₁).description = "File too small to identify" ∧
    (analyzeFile name b₁).hash = "N/A" ∧
    (analyzeFile name b₁).entropy = 0 := by
  have h2 : b₂.length < 2 := heq ▸ hlen
  have e1 := analyzeFile_small name b₁ hlen
  have e2 := analyzeFile_small name b₂ h2
  refine ⟨?_, e1, ?_, ?_, ?_, ?_, ?_⟩
  · rw [e1, e2, heq]
  all_goals rw [e1]; rfl

/-- Witness for the C6 theorem: one-byte inputs `[5]` and `[9]` with the
name `"a.txt"`. -/
theorem pipeline_short_circuit_small_witness :
    ([(5 : Fin 256)].length < 2 ∧ [(5 : Fin 256)].length = [(9 : Fin 256)].length) ∧
    (analyzeFile "a.txt" [(5 : Fin 256)]).isCorrupt = true ∧
    analyzeFile "a.txt" [(5 : Fin 256)] = analyzeFile "a.txt" [(9 : Fin 256)] := by
  have h := pipeline_short_circuit_small "a.txt" [(5 : Fin 256)] [(9 : Fin 256)]
    (by decide) (by decide)
  exact ⟨⟨by decide, by decide⟩, h.2.2.1, h.1⟩

theorem normalRecord_mismatch (name : String) (bytes : List (Fin 256)) :
    (normalRecord name bytes).extensionMismatch =
      (match magicFind bytes with
       | some sig =>
         !sig.extensions.isEmpty && !(getFileExtension name == "") &&
           !(sig.extensions.contains (getFileExtension name))
       | none => false) := by
  unfold normalRecord magicFind
  cases hfind : magicDatabase.find?
      (fun sig => jsStartsWith (bytesToHex (bytes.take 64)) sig.hex) with
  | none =>
    simp only [hfind]
    split
    · split <;> rfl
    · rfl
  | some sig =>
    simp only [hfind]
    split
    · split <;> rfl
    · rfl

theorem mismatchBool_iff (sig : AppSig) (ext : String) :
    (!sig.extensions.isEmpty && !(ext == "") && !(sig.extensions.contains ext)) = true ↔
      (sig.extensions ≠ [] ∧ ext ≠ "" ∧ ext ∉ sig.extensions) := by
  simp [and_assoc]

/-- C7 counterexample: take the 4-byte PNG header with the extensionless
name `"noext"`.  The PNG signature matches, it declares the non-empty
valid-extension set `[".png"]`, and the file's actual extension (the empty
string) is not a member of that set — so the claim's "exactly when"
condition holds — yet the code does not set the flag, because the
JavaScript guard `result.actualExtension` additionally requires a
non-empty extension. -/
theorem mismatch_flag_counterexample :
    magicFind [(0x89 : Fin 256), 0x50, 0x4E, 0x47] =
      some ⟨"89504E47", "PNG", "Image", "Portable Network Graphics", [".png"]⟩ ∧
    ([".png"] : List String) ≠ [] ∧
    getFileExtension "noext" ∉ ([".png"] : List String) ∧
    (analyzeFile "noext" [(0x89 : Fin 256), 0x50, 0x4E, 0x47]).extensionMismatch = false := by
  refine ⟨by decide, by decide, by decide, by decide⟩

/-- C7 (amended): the extension-mismatch flag is set exactly when a
signature matched, that signature declares a non-empty valid-extension
set, the file's actual extension (lower-cased) is non-empty, and that
extension is not a member of the set; signatures declaring no
valid-extension set never flag.  In particular a file with PNG header
bytes `89 50 4E 47` is flagged when its extension is `.txt` and not
flagged when it is `.png`. -/
theorem mismatch_flag_iff (name : String) (bytes : List (Fin 256)) :
    ((analyzeFile name bytes).extensionMismatch = true ↔
      (2 ≤ bytes.length ∧ ∃ sig, magicFind bytes = some sig ∧ sig.extensions ≠ [] ∧
        getFileExtension name ≠ "" ∧ getFileExtension name ∉ sig.extensions)) ∧
    (analyzeFile "photo.txt" [(0x89 : Fin 256), 0x50, 0x4E, 0x47]).extensionMismatch = true ∧
    (analyzeFile "photo.png" [(0x89 : Fin 256), 0x50, 0x4E, 0x47]).extensionMismatch = false ∧
    (analyzeFile "photo.txt" [(0x89 : Fin 256), 0x50, 0x4E, 0x47]).type = "PNG" ∧
    (analyzeFile "photo.txt" [(0x89 : Fin 256), 0x50, 0x4E, 0x47]).category = "Image" := by
  refine ⟨?_, by decide, by decide, by decide, by decide⟩
  by_cases hlen : bytes.length < 2
  · rw [analyzeFile_small name bytes hlen]
    constructor
    · intro h
      have hfalse : (tooSmallRecord name bytes.length).extensionMismatch = false := rfl
      rw [hfalse] at h
      exact absurd h Bool.false_ne_true
    · rintro ⟨h2, _⟩
      omega
  · unfold analyzeFile
    rw [if_neg hlen, normalRecord_mismatch]
    cases hfind : magicFind bytes with
    | none => simp [hfind]
    | some sig =>
      simp only [hfind]
      rw [mismatchBool_iff]
      constructor
      · intro h
        exact ⟨by omega, sig, rfl, h⟩
      · rintro ⟨_, sig', hsig', h⟩
        rw [Option.some.injEq] at hsig'
        rw [hsig']
        exact h

/-! ## Claim C8: the entropy scorer -/

theorem entropy_empty : calculateEntropy [] = 0 := by
  simp [calculateEntropy]

theorem toFinset_eq_support (bytes : List (Fin 256)) :
    bytes.toFinset = Finset.univ.filter (fun i : Fin 256 => 0 < bytes.count i) := by
  ext i
  simp [List.count_pos_iff]

theorem entropy_eq_sum (bytes : List (Fin 256)) (h : bytes ≠ []) :
    calculateEntropy bytes
      = ∑ i in bytes.toFinset,
          -(((bytes.count i : ℝ) / (bytes.length : ℝ)) *
            Real.logb 2 ((bytes.count i : ℝ) / (bytes.length : ℝ))) := by
  have hlen : bytes.length ≠ 0 := by simpa [List.length_eq_zero] using h
  unfold calculateEntropy
  rw [if_neg hlen, toFinset_eq_support, Finset.sum_filter]

theorem sum_count_toFinset (bytes : List (Fin 256)) :
    ∑ i in bytes.toFinset, bytes.count i = bytes.length := by
  have := Multiset.toFinset_sum_count_eq (↑bytes : Multiset (Fin 256))
  simpa using this

theorem sum_p_one (bytes : List (Fin 256)) (h : bytes ≠ []) :
    ∑ i in bytes.toFinset, ((bytes.count i : ℝ) / (bytes.length : ℝ)) = 1 := by
  have hlpos : (0:ℝ) < (bytes.length : ℝ) := by
    exact_mod_cast List.length_pos.mpr h
  rw [← Finset.sum_div]
  have hc : ∑ i in bytes.toFinset, ((bytes.count i : ℕ) : ℝ) = (bytes.length : ℝ) := by
    rw [← Nat.cast_sum]
    exact_mod_cast congrArg (fun n : ℕ => (n : ℝ)) (sum_count_toFinset bytes)
  rw [hc]
  exact div_self (ne_of_gt hlpos)

theorem entropy_nonneg (bytes : List (Fin 256)) : 0 ≤ calculateEntropy bytes := by
  unfold calculateEntropy
  split
  · exact le_refl 0
  case isFalse hlen =>
    apply Finset.sum_nonneg
    intro i _
    split
    case isTrue hc =>
      have hlpos : (0:ℝ) < (bytes.length : ℝ) := by
        exact_mod_cast Nat.pos_of_ne_zero hlen
      have hp0 : 0 < (bytes.count i : ℝ) / (bytes.length : ℝ) :=
        div_pos (by exact_mod_cast hc) hlpos
      have hp1 : (bytes.count i : ℝ) / (bytes.length : ℝ) ≤ 1 := by
        rw [div_le_one hlpos]
        exact_mod_cast List.count_le_length i bytes
      have hlog : Real.logb 2 ((bytes.count i : ℝ) / (bytes.length : ℝ)) ≤ 0 :=
        Real.logb_nonpos (by norm_num) hp0.le hp1
      have hmul := mul_le_mul_of_nonneg_left hlog hp0.le
      rw [mul_zero] at hmul
      linarith
    case isFalse => exact le_refl 0

theorem entropy_le_eight (bytes : List (Fin 256)) : calculateEntropy bytes ≤ 8 := by
  by_cases h : bytes = []
  · subst h
    rw [entropy_empty]
    norm_num
  · have hlpos : (0:ℝ) < (bytes.length : ℝ) := by
      exact_mod_cast List.length_pos.mpr h
    have hlog2 : (0:ℝ) < Real.log 2 := Real.log_pos one_lt_two
    rw [entropy_eq_sum bytes h]
    have key : ∀ i ∈ bytes.toFinset,
        -(((bytes.count i : ℝ) / (bytes.length : ℝ)) *
            Real.logb 2 ((bytes.count i : ℝ) / (bytes.length : ℝ)))
          ≤ ((1:ℝ)/256 - (bytes.count i : ℝ)/(bytes.length : ℝ) +
              ((bytes.count i : ℝ)/(bytes.length : ℝ)) * Real.log 256) / Real.log 2 := by
      intro i hi
      set p : ℝ := (bytes.count i : ℝ) / (bytes.length : ℝ) with hpdef
      have hmem : i ∈ bytes := List.mem_toFinset.mp hi
      have hcpos : 0 < bytes.count i := List.count_pos_iff.mpr hmem
      have hp0 : 0 < p := div_pos (by exact_mod_cast hcpos) hlpos
      have h1 : Real.log (1/(256 * p)) ≤ 1/(256 * p) - 1 :=
        Real.log_le_sub_one_of_pos (by positivity)
      have h2 : Real.log (1/(256 * p)) = -(Real.log 256 + Real.log p) := by
        rw [one_div, Real.log_inv, Real.log_mul (by norm_num) (ne_of_gt hp0)]
      rw [h2] at h1
      have h3 : p * -(Real.log 256 + Real.log p) ≤ p * (1/(256 * p) - 1) :=
        mul_le_mul_of_nonneg_left h1 hp0.le
      have h4 : p * (1/(256 * p) - 1) = 1/256 - p := by
        field_simp
        ring
      have h5 : -(p * Real.log p) ≤ 1/256 - p + p * Real.log 256 := by
        nlinarith [h3, h4]
      have h6 : -(p * Real.logb 2 p) = (-(p * Real.log p)) / Real.log 2 := by
        rw [Real.logb]
        ring
      rw [h6]
      exact (div_le_div_iff_of_pos_right hlog2).mpr h5
    have hsum := Finset.sum_le_sum key
    have hps := sum_p_one bytes h
    have hcard : ((bytes.toFinset.card : ℕ) : ℝ) ≤ 256 := by
      exact_mod_cast card_finset_fin_le bytes.toFinset
    have hrhs : ∑ i in bytes.toFinset,
        (((1:ℝ)/256 - (bytes.count i : ℝ)/(bytes.length : ℝ) +
          ((bytes.count i : ℝ)/(bytes.length : ℝ)) * Real.log 256) / Real.log 2)
        = (((bytes.toFinset.card : ℕ) : ℝ)/256 - 1 + Real.log 256) / Real.log 2 := by
      rw [← Finset.sum_div]
      congr 1
      rw [Finset.sum_add_distrib, Finset.sum_sub_distrib, ← Finset.sum_mul, hps,
        Finset.sum_const]
      simp only [nsmul_eq_mul]
      ring
    rw [hrhs] at hsum
    refine le_trans hsum ?_
    have hlog256 : Real.log 256 = 8 * Real.log 2 := by
      rw [show (256:ℝ) = 2^8 by norm_num, Real.log_pow]
      push_cast
      ring
    have hdiv : ((bytes.toFinset.card : ℕ) : ℝ)/256 ≤ 1 := by
      rw [div_le_one (by norm_num : (0:ℝ) < 256)]
      exact hcard
    rw [div_le_iff₀ hlog2]
    linarith [hlog256, hdiv]

theorem entropy_zero_iff (bytes : List (Fin 256)) (h : bytes ≠ []) :
    calculateEntropy bytes = 0 ↔ bytes.toFinset.card = 1 := by
  have hlpos : (0:ℝ) < (bytes.length : ℝ) := by
    exact_mod_cast List.length_pos.mpr h
  have hlog2 : (0:ℝ) < Real.log 2 := Real.log_pos one_lt_two
  constructor
  · intro h0
    rw [entropy_eq_sum bytes h] at h0
    have hnonneg : ∀ i ∈ bytes.toFinset,
        0 ≤ -(((bytes.count i : ℝ) / (bytes.length : ℝ)) *
            Real.logb 2 ((bytes.count i : ℝ) / (bytes.length : ℝ))) := by
      intro i hi
      have hcpos : 0 < bytes.count i := List.count_pos_iff.mpr (List.mem_toFinset.mp hi)
      have hp0 : 0 < (bytes.count i : ℝ) / (bytes.length : ℝ) :=
        div_pos (by exact_mod_cast hcpos) hlpos
      have hp1 : (bytes.count i : ℝ) / (bytes.length : ℝ) ≤ 1 := by
        rw [div_le_one hlpos]
        exact_mod_cast List.count_le_length i bytes
      have hlog : Real.logb 2 ((bytes.count i : ℝ) / (bytes.length : ℝ)) ≤ 0 :=
        Real.logb_nonpos (by norm_num) hp0.le hp1
      have hmul := mul_le_mul_of_nonneg_left hlog hp0.le
      rw [mul_zero] at hmul
      linarith
    have hall := (Finset.sum_eq_zero_iff_of_nonneg hnonneg).mp h0
    have hcount : ∀ i ∈ bytes.toFinset, bytes.count i = bytes.length := by
      intro i hi
      have hterm := hall i hi
      have hcpos : 0 < bytes.count i := List.count_pos_iff.mpr (List.mem_toFinset.mp hi)
      have hp0 : 0 < (bytes.count i : ℝ) / (bytes.length : ℝ) :=
        div_pos (by exact_mod_cast hcpos) hlpos
      have hmul : ((bytes.count i : ℝ) / (bytes.length : ℝ)) *
          Real.logb 2 ((bytes.count i : ℝ) / (bytes.length : ℝ)) = 0 := by
        linarith [hterm]
      rcases mul_eq_zero.mp hmul with hp | hlogb
      · exact absurd hp (ne_of_gt hp0)
      · have hlogp : Real.log ((bytes.count i : ℝ) / (bytes.length : ℝ)) = 0 := by
          rw [Real.logb] at hlogb
          rcases div_eq_zero_iff.mp hlogb with h' | h'
          · exact h'
          · exact absurd h' (ne_of_gt hlog2)
        rcases Real.log_eq_zero.mp hlogp with h' | h' | h'
        · exact absurd h' (ne_of_gt hp0)
        · have hcast : (bytes.count i : ℝ) = (bytes.length : ℝ) := by
            field_simp at h'
            exact_mod_cast h'
          exact_mod_cast hcast
        · linarith [hp0]
    obtain ⟨a, ha⟩ : ∃ a, a ∈ bytes.toFinset := by
      cases hb : bytes with
      | nil => exact absurd hb h
      | cons x xs => exact ⟨x, by simp [hb]⟩
    rw [Finset.card_eq_one]
    refine ⟨a, ?_⟩
    rw [Finset.eq_singleton_iff_unique_mem]
    refine ⟨ha, ?_⟩
    intro b hb
    by_contra hne
    have hsub : ({a, b} : Finset (Fin 256)) ⊆ bytes.toFinset := by
      intro x hx
      rcases Finset.mem_insert.mp hx with rfl | hx
      · exact ha
      · rw [Finset.mem_singleton] at hx
        subst hx
        exact hb
    have hsum2 : ∑ i in ({a, b} : Finset (Fin 256)), bytes.count i
        ≤ ∑ i in bytes.toFinset, bytes.count i :=
      Finset.sum_le_sum_of_subset_of_nonneg hsub (fun _ _ _ => Nat.zero_le _)
    rw [Finset.sum_pair (fun hab => hne hab.symm)] at hsum2
    rw [hcount a ha, hcount b hb, sum_count_toFinset] at hsum2
    have hpos : 0 < bytes.length := List.length_pos.mpr h
    omega
  · intro hcard
    obtain ⟨a, ha⟩ := Finset.card_eq_one.mp hcard
    rw [entropy_eq_sum bytes h, ha, Finset.sum_singleton]
    have hca : bytes.count a = bytes.length := by
      rw [List.count_eq_length]
      intro b hb
      have hmb : b ∈ bytes.toFinset := List.mem_toFinset.mpr hb
      rw [ha, Finset.mem_singleton] at hmb
      exact hmb.symm
    rw [hca, div_self (ne_of_gt hlpos), Real.logb_one]
    simp

/-- C8: for every byte sequence the computed Shannon entropy lies in
`[0, 8]`; the empty sequence yields exactly `0`; and a non-empty sequence
has entropy `0` if and only if it contains exactly one distinct byte
value. -/
theorem entropy_range_and_zero_iff (bytes : List (Fin 256)) :
    0 ≤ calculateEntropy bytes ∧ calculateEntropy bytes ≤ 8 ∧
    calculateEntropy [] = 0 ∧
    (bytes ≠ [] → (calculateEntropy bytes = 0 ↔ bytes.toFinset.card = 1)) :=
  ⟨entropy_nonneg bytes, entropy_le_eight bytes, entropy_empty,
   fun h => entropy_zero_iff bytes h⟩

/-- Witness for the C8 theorem: the two-byte constant sequence `[0, 0]` is
non-empty, has one distinct byte value, and gets entropy exactly `0`. -/
theorem entropy_range_and_zero_iff_witness :
    ([(0 : Fin 256), 0] ≠ ([] : List (Fin 256))) ∧
    calculateEntropy [(0 : Fin 256), 0] = 0 :=
  ⟨by decide,
   ((entropy_range_and_zero_iff [(0 : Fin 256), 0]).2.2.2 (by decide)).mpr (by decide)⟩

/-! ## Claim C9: classification bands and the encrypted heuristic -/

theorem normalRecord_entropy (name : String) (bytes : List (Fin 256)) :
    (normalRecord name bytes).entropy = calculateEntropy (bytes.take 65536) := by
  unfold normalRecord
  cases hfind : magicDatabase.find?
      (fun sig => jsStartsWith (bytesToHex (bytes.take 64)) sig.hex) with
  | none =>
    simp only [hfind]
    split
    · split <;> rfl
    · rfl
  | some sig =>
    simp only [hfind]
    split
    · split <;> rfl
    · rfl

theorem normalRecord_isEncrypted (name : String) (bytes : List (Fin 256)) :
    (normalRecord name bytes).isEncrypted = (7.5 ≤ calculateEntropy (bytes.take 65536)) := by
  unfold normalRecord
  cases hfind : magicDatabase.find?
      (fun sig => jsStartsWith (bytesToHex (bytes.take 64)) sig.hex) with
  | none =>
    simp only [hfind]
    split
    · split <;> rfl
    · rfl
  | some sig =>
    simp only [hfind]
    split
    · split <;> rfl
    · rfl

theorem normalRecord_entropyLevel (name : String) (bytes : List (Fin 256)) :
    (normalRecord name bytes).entropyLevel
      = getEntropyLevel (calculateEntropy (bytes.take 65536)) := by
  unfold normalRecord
  cases hfind : magicDatabase.find?
      (fun sig => jsStartsWith (bytesToHex (bytes.take 64)) sig.hex) with
  | none =>
    simp only [hfind]
    split
    · split <;> rfl
    · rfl
  | some sig =>
    simp only [hfind]
    split
    · split <;> rfl
    · rfl

/-- C9: `getEntropyLevel` labels values below `4` as Low, values in
`[4, 7)` as Medium and values at or above `7` as High, while the separate
likely-encrypted flag of the pipeline holds exactly when
`entropy ≥ 7.5`; the thresholds are distinct, so an entropy in
`[7, 7.5)` is labelled High but not flagged encrypted, and the record's
level field is the classification of its entropy field. -/
theorem entropy_thresholds (e : ℝ) (name : String) (bytes : List (Fin 256)) :
    (e < 4 → (getEntropyLevel e).level = "Low") ∧
    (4 ≤ e → e < 7 → (getEntropyLevel e).level = "Medium") ∧
    (7 ≤ e → (getEntropyLevel e).level = "High") ∧
    ((analyzeFile name bytes).isEncrypted ↔ 7.5 ≤ (analyzeFile name bytes).entropy) ∧
    (7 ≤ e → e < 7.5 → (getEntropyLevel e).level = "High" ∧ ¬ (7.5 ≤ e)) ∧
    (2 ≤ bytes.length →
      (analyzeFile name bytes).entropyLevel
        = getEntropyLevel ((analyzeFile name bytes).entropy)) := by
  refine ⟨?_, ?_, ?_, ?_, ?_, ?_⟩
  · intro h4
    unfold getEntropyLevel
    rw [if_pos h4]
  · intro h4 h7
    unfold getEntropyLevel
    rw [if_neg (not_lt.mpr h4), if_pos h7]
  · intro h7
    unfold getEntropyLevel
    rw [if_neg (not_lt.mpr (le_trans (by norm_num) h7)),
      if_neg (not_lt.mpr h7)]
  · by_cases hlen : bytes.length < 2
    · rw [analyzeFile_small name bytes hlen]
      constructor
      · intro hfalse
        exact absurd hfalse (by simp [tooSmallRecord])
      · intro h75
        have : (tooSmallRecord name bytes.length).entropy = 0 := rfl
        rw [this] at h75
        norm_num at h75
    · unfold analyzeFile
      rw [if_neg hlen, normalRecord_isEncrypted, normalRecord_entropy]
  · intro h7 h75
    refine ⟨?_, not_le.mpr h75⟩
    unfold getEntropyLevel
    rw [if_neg (not_lt.mpr (le_trans (by norm_num) h7)),
      if_neg (not_lt.mpr h7)]
  · intro h2
    have hlen : ¬ bytes.length < 2 := by omega
    unfold analyzeFile
    rw [if_neg hlen, normalRecord_entropyLevel, normalRecord_entropy]

/-- Witness for the C9 theorem: the entropy value `29/4 = 7.25` lies in
`[7, 7.5)`, is labelled High and is not flagged encrypted. -/
theorem entropy_thresholds_witness :
    ((7:ℝ) ≤ 29/4 ∧ (29:ℝ)/4 < 7.5) ∧
    ((getEntropyLevel ((29:ℝ)/4)).level = "High" ∧ ¬ ((7.5:ℝ) ≤ 29/4)) :=
  ⟨⟨by norm_num, by norm_num⟩,
   (entropy_thresholds ((29:ℝ)/4) "a" []).2.2.2.2.1 (by norm_num) (by norm_num)⟩

/-! ## Claim C4: the naming resolver -/

theorem digit_toNat (d : Nat) (h : d < 10) : (Char.ofNat (48 + d)).toNat = 48 + d := by
  have hfin : ∀ m : Fin 10, (Char.ofNat (48 + m.val)).toNat = 48 + m.val := by decide
  exact hfin ⟨d, h⟩

theorem charsToNat_append (l : List Char) (c : Char) :
    charsToNat (l ++ [c]) = 10 * charsToNat l + digitVal c := by
  unfold charsToNat
  rw [List.foldl_append]
  rfl

theorem charsToNat_natToCharsAux :
    ∀ fuel n, n < 10 ^ fuel → charsToNat (natToCharsAux fuel n) = n := by
  intro fuel
  induction fuel with
  | zero =>
    intro n h
    simp only [pow_zero, Nat.lt_one_iff] at h
    subst h
    rfl
  | succ fuel ih =>
    intro n h
    by_cases h10 : n < 10
    · simp only [natToCharsAux, h10, if_true]
      show 10 * 0 + digitVal (Char.ofNat (48 + n)) = n
      unfold digitVal
      rw [digit_toNat n h10]
      omega
    · simp only [natToCharsAux, h10, if_false]
      rw [charsToNat_append]
      have hdiv : n / 10 < 10 ^ fuel := by
        rw [Nat.div_lt_iff_lt_mul (by norm_num)]
        calc n < 10 ^ (fuel + 1) := h
          _ = 10 ^ fuel * 10 := by ring
      rw [ih (n / 10) hdiv]
      unfold digitVal
      rw [digit_toNat (n % 10) (Nat.mod_lt n (by norm_num))]
      omega

theorem charsToNat_natToChars (n : Nat) : charsToNat (natToChars n) = n := by
  apply charsToNat_natToCharsAux
  calc n < 10 ^ n := Nat.lt_pow_self (by norm_num) n
    _ ≤ 10 ^ (n + 1) := Nat.pow_le_pow_right (by norm_num) (Nat.le_succ n)

theorem natToChars_inj {m n : Nat} (h : natToChars m = natToChars n) : m = n := by
  rw [← charsToNat_natToChars m, ← charsToNat_natToChars n, h]

theorem natToCharsAux_digits :
    ∀ fuel n c, c ∈ natToCharsAux fuel n → 48 ≤ c.toNat ∧ c.toNat ≤ 57 := by
  intro fuel
  induction fuel with
  | zero =>
    intro n c hc
    simp [natToCharsAux] at hc
  | succ fuel ih =>
    intro n c hc
    by_cases h10 : n < 10
    · simp only [natToCharsAux, h10, if_true, List.mem_singleton] at hc
      subst hc
      rw [digit_toNat n h10]
      omega
    · simp only [natToCharsAux, h10, if_false, List.mem_append, List.mem_singleton] at hc
      rcases hc with hc | hc
      · exact ih _ c hc
      · subst hc
        rw [digit_toNat (n % 10) (Nat.mod_lt n (by norm_num))]
        omega

theorem toLower_of_not_upper (c : Char) (h : ¬(c.toNat ≥ 65 ∧ c.toNat ≤ 90)) :
    c.toLower = c := by
  unfold Char.toLower
  rw [if_neg h]

theorem lowerL_digits :
    ∀ d : List Char, (∀ c ∈ d, 48 ≤ c.toNat ∧ c.toNat ≤ 57) → jsToLowerChars d = d := by
  intro d
  induction d with
  | nil => intro _; rfl
  | cons c cs ih =>
    intro hd
    have hc := hd c (List.mem_cons_self c cs)
    simp only [jsToLowerChars, List.map_cons]
    rw [toLower_of_not_upper c (by omega)]
    have hcs := ih (fun x hx => hd x (List.mem_cons_of_mem c hx))
    rw [show List.map Char.toLower cs = cs from hcs]

theorem lowerL_natToChars (n : Nat) : jsToLowerChars (natToChars n) = natToChars n :=
  lowerL_digits _ (fun c hc => natToCharsAux_digits _ _ c hc)

theorem lowerL_append (a b : List Char) :
    jsToLowerChars (a ++ b) = jsToLowerChars a ++ jsToLowerChars b := by
  simp [jsToLowerChars]

theorem lowerL_cons (c : Char) (l : List Char) :
    jsToLowerChars (c :: l) = c.toLower :: jsToLowerChars l := rfl

theorem toLower_underscore : Char.toLower '_' = '_' := by decide

theorem lowered_append_end_inj (a : List Char) {c₁ c₂ : Nat}
    (h : jsToLowerChars (a ++ '_' :: natToChars c₁)
        = jsToLowerChars (a ++ '_' :: natToChars c₂)) : c₁ = c₂ := by
  rw [lowerL_append, lowerL_append, lowerL_cons, lowerL_cons, toLower_underscore,
    lowerL_natToChars, lowerL_natToChars] at h
  have h2 := List.append_cancel_left h
  injection h2 with _ h3
  exact natToChars_inj h3

theorem lowered_append_mid_inj (a b : List Char) {c₁ c₂ : Nat}
    (h : jsToLowerChars (a ++ ('_' :: natToChars c₁) ++ b)
        = jsToLowerChars (a ++ ('_' :: natToChars c₂) ++ b)) : c₁ = c₂ := by
  rw [lowerL_append, lowerL_append, lowerL_append, lowerL_append, lowerL_cons, lowerL_cons,
    toLower_underscore, lowerL_natToChars, lowerL_natToChars] at h
  have h2 := List.append_cancel_right h
  have h3 := List.append_cancel_left h2
  injection h3 with _ h4
  exact natToChars_inj h4

theorem withCounter_of_none (safe : List Char) (c : Nat) (h : lastDotPos safe = none) :
    withCounter safe c = safe ++ '_' :: natToChars c := by
  simp [withCounter, h]

theorem withCounter_of_some (safe : List Char) (c i : Nat) (h : lastDotPos safe = some i) :
    withCounter safe c =
      (if 0 < i then safe.take i ++ '_' :: natToChars c ++ safe.drop i
       else safe ++ '_' :: natToChars c) := by
  simp [withCounter, h]

theorem lowered_withCounter_inj (safe : List Char) {c₁ c₂ : Nat}
    (h : jsToLowerChars (withCounter safe c₁) = jsToLowerChars (withCounter safe c₂)) :
    c₁ = c₂ := by
  rcases hdot : lastDotPos safe with _ | i
  · rw [withCounter_of_none safe c₁ hdot, withCounter_of_none safe c₂ hdot] at h
    exact lowered_append_end_inj safe h
  · rw [withCounter_of_some safe c₁ i hdot, withCounter_of_some safe c₂ i hdot] at h
    by_cases hi : 0 < i
    · rw [if_pos hi, if_pos hi] at h
      exact lowered_append_mid_inj (safe.take i) (safe.drop i) h
    · rw [if_neg hi, if_neg hi] at h
      exact lowered_append_end_inj safe h

theorem exists_free_counter (claimed : List (List Char)) (safe : List Char) :
    ∃ k, 1 ≤ k ∧ k < 1 + (claimed.length + 1) ∧
      jsToLowerChars (withCounter safe k) ∉ claimed := by
  by_contra hcon
  push_neg at hcon
  have hinj : Set.InjOn (fun k => jsToLowerChars (withCounter safe k))
      ↑(Finset.Icc 1 (claimed.length + 1)) :=
    fun a _ b _ hab => lowered_withCounter_inj safe hab
  have himg : (Finset.Icc 1 (claimed.length + 1)).image
      (fun k => jsToLowerChars (withCounter safe k)) ⊆ claimed.toFinset := by
    intro x hx
    rcases Finset.mem_image.mp hx with ⟨k, hk, rfl⟩
    rw [Finset.mem_Icc] at hk
    exact List.mem_toFinset.mpr (hcon k hk.1 (by omega))
  have hcard1 : ((Finset.Icc 1 (claimed.length + 1)).image
      (fun k => jsToLowerChars (withCounter safe k))).card = claimed.length + 1 := by
    rw [Finset.card_image_of_injOn hinj, Nat.card_Icc]
    omega
  have hcard2 := Finset.card_le_card himg
  have hcard3 := List.toFinset_card_le claimed
  omega

theorem freeFrom_not_mem (claimed : List (List Char)) (safe : List Char) :
    ∀ (fuel c : Nat),
      (∃ k, c ≤ k ∧ k < c + fuel ∧ jsToLowerChars (withCounter safe k) ∉ claimed) →
      jsToLowerChars (freeFrom claimed safe fuel c) ∉ claimed := by
  intro fuel
  induction fuel with
  | zero =>
    rintro c ⟨k, hk1, hk2, _⟩
    omega
  | succ fuel ih =>
    rintro c ⟨k, hk1, hk2, hk3⟩
    simp only [freeFrom]
    by_cases hc : jsToLowerChars (withCounter safe c) ∈ claimed
    · rw [if_pos hc]
      apply ih
      refine ⟨k, ?_, by omega, hk3⟩
      rcases Nat.eq_or_lt_of_le hk1 with rfl | hlt
      · exact absurd hc hk3
      · omega
    · rw [if_neg hc]
      exact hc

theorem findFree_not_mem (claimed : List (List Char)) (safe : List Char) :
    jsToLowerChars (findFree claimed safe) ∉ claimed := by
  unfold findFree
  by_cases hsafe : jsToLowerChars safe ∈ claimed
  · rw [if_pos hsafe]
    exact freeFrom_not_mem claimed safe (claimed.length + 1) 1 (exists_free_counter claimed safe)
  · rw [if_neg hsafe]
    exact hsafe

theorem lookup_insert_self :
    ∀ (u : List (List Char × List (List Char))) (g : List Char) (v : List (List Char)),
      lookupGroup (insertGroup u g v) g = v := by
  intro u
  induction u with
  | nil =>
    intro g v
    simp [insertGroup, lookupGroup]
  | cons p rest ih =>
    intro g v
    by_cases hg : p.1 = g
    · simp [insertGroup, hg, lookupGroup]
    · simp [insertGroup, hg, lookupGroup, ih]

theorem lookup_insert_other :
    ∀ (u : List (List Char × List (List Char))) (g g' : List Char) (v : List (List Char)),
      g' ≠ g → lookupGroup (insertGroup u g v) g' = lookupGroup u g' := by
  intro u
  induction u with
  | nil =>
    intro g g' v hne
    show (if g = g' then v else lookupGroup [] g') = lookupGroup [] g'
    rw [if_neg (fun h : g = g' => hne h.symm)]
  | cons p rest ih =>
    intro g g' v hne
    obtain ⟨k, w⟩ := p
    by_cases hg : k = g
    · have hins : insertGroup ((k, w) :: rest) g v = (g, v) :: rest := by
        simp [insertGroup, hg]
      rw [hins]
      show (if g = g' then v else lookupGroup rest g')
          = (if k = g' then w else lookupGroup rest g')
      rw [if_neg (fun h : g = g' => hne h.symm),
        if_neg (fun h : k = g' => hne (hg.symm.trans h).symm)]
    · have hins : insertGroup ((k, w) :: rest) g v = (k, w) :: insertGroup rest g v := by
        simp [insertGroup, hg]
      rw [hins]
      show (if k = g' then w else lookupGroup (insertGroup rest g v) g')
          = (if k = g' then w else lookupGroup rest g')
      by_cases hk : k = g'
      · rw [if_pos hk, if_pos hk]
      · rw [if_neg hk, if_neg hk]
        exact ih g g' v hne

/-- The inductive invariant of the naming resolver's pre-calculation loop:
the claimed-name set of every folder is exactly the lower-cased finalised
names already emitted for that folder, in emission order. -/
def ResolverInv (used : List (List Char × List (List Char)))
    (out : List (List Char × List Char)) : Prop :=
  ∀ g, lookupGroup used g
    = (out.filter (fun j => j.1 = g)).map (fun j => jsToLowerChars j.2)

theorem resolveStep_eq (nowStr : List Char)
    (acc : List (List Char × List (List Char)) × List (List Char × List Char))
    (job : List Char × List Char) :
    resolveStep nowStr acc job =
      (insertGroup acc.1 job.1 (lookupGroup acc.1 job.1 ++
          [jsToLowerChars (findFree (lookupGroup acc.1 job.1) (sanitizeName nowStr job.2))]),
       acc.2 ++ [(job.1, findFree (lookupGroup acc.1 job.1) (sanitizeName nowStr job.2))]) :=
  rfl

theorem resolve_fold (nowStr : List Char) :
    ∀ (jobs : List (List Char × List Char)) (used : List (List Char × List (List Char)))
      (out : List (List Char × List Char)),
      ResolverInv used out →
      (∀ g, (lookupGroup used g).Nodup) →
      ResolverInv (jobs.foldl (resolveStep nowStr) (used, out)).1
          (jobs.foldl (resolveStep nowStr) (used, out)).2 ∧
      (∀ g, (lookupGroup (jobs.foldl (resolveStep nowStr) (used, out)).1 g).Nodup) ∧
      (jobs.foldl (resolveStep nowStr) (used, out)).2.length = out.length + jobs.length := by
  intro jobs
  induction jobs with
  | nil =>
    intro used out hinv hnd
    exact ⟨hinv, hnd, by simp⟩
  | cons job rest ih =>
    intro used out hinv hnd
    rw [List.foldl_cons, resolveStep_eq]
    have hfree := findFree_not_mem (lookupGroup used job.1) (sanitizeName nowStr job.2)
    have hinv' : ResolverInv
        (insertGroup used job.1 (lookupGroup used job.1 ++
          [jsToLowerChars (findFree (lookupGroup used job.1) (sanitizeName nowStr job.2))]))
        (out ++ [(job.1, findFree (lookupGroup used job.1) (sanitizeName nowStr job.2))]) := by
      intro g
      by_cases hg : job.1 = g
      · subst hg
        rw [lookup_insert_self, List.filter_append, List.map_append, hinv job.1]
        simp
      · rw [lookup_insert_other used job.1 g _ (fun h => hg h.symm),
          List.filter_append, List.map_append, hinv g]
        have : List.filter (fun j => decide (j.1 = g))
            [(job.1, findFree (lookupGroup used job.1) (sanitizeName nowStr job.2))] = [] := by
          simp [hg]
        rw [this]
        simp
    have hnd' : ∀ g, (lookupGroup (insertGroup used job.1 (lookupGroup used job.1 ++
        [jsToLowerChars (findFree (lookupGroup used job.1) (sanitizeName nowStr job.2))])) g).Nodup := by
      intro g
      by_cases hg : job.1 = g
      · subst hg
        rw [lookup_insert_self]
        rw [List.nodup_append]
        refine ⟨hnd job.1, List.nodup_singleton _, ?_⟩
        intro a ha hb
        rw [List.mem_singleton] at hb
        subst hb
        exact hfree ha
      · rw [lookup_insert_other used job.1 g _ (fun h => hg h.symm)]
        exact hnd g
    obtain ⟨h1, h2, h3⟩ := ih _ _ hinv' hnd'
    refine ⟨h1, h2, ?_⟩
    rw [h3]
    simp [List.length_append]
    omega

/-- C4: for any list of jobs, the naming resolver produces one finalised
name per job, deterministically (it is a pure function of the job list and
the `Date.now()` string), and within every destination group the
finalised names are pairwise distinct under case-insensitive comparison;
for three identical names `report.txt` in one group it yields
`report.txt`, `report_1.txt`, `report_2.txt`, the suffix inserted before
the extension. -/
theorem resolver_unique_names (nowStr : List Char)
    (jobs : List (List Char × List Char)) (g : List Char) :
    (resolveNames nowStr jobs).length = jobs.length ∧
    (((resolveNames nowStr jobs).filter (fun j => j.1 = g)).map
        (fun j => jsToLowerChars j.2)).Nodup ∧
    resolveNames [] [("Docs".data, "report.txt".data), ("Docs".data, "report.txt".data),
        ("Docs".data, "report.txt".data)]
      = [("Docs".data, "report.txt".data), ("Docs".data, "report_1.txt".data),
         ("Docs".data, "report_2.txt".data)] := by
  have base_inv : ResolverInv [] [] := fun _ => rfl
  have base_nd : ∀ g', (lookupGroup ([] : List (List Char × List (List Char))) g').Nodup :=
    fun _ => List.nodup_nil
  obtain ⟨hinv, hnd, hlen⟩ := resolve_fold nowStr jobs [] [] base_inv base_nd
  refine ⟨by simpa [resolveNames] using hlen, ?_, by decide⟩
  have hg := hnd g
  rw [hinv g] at hg
  exact hg

end FileTypeAnalyzer
